import Mathlib

set_option maxHeartbeats 1000000

namespace VariantAnnotation

/- Data model, embedded from src/src/models.py (pydantic classes Variant and
AnnotatedVariant). Python ints are modelled as Int, the float fields as
rationals, allele strings as lists of characters. -/

/-- One-character membership in the regular-expression character class [ACGT]
used by the pydantic field pattern of ref and alt. -/
def isACGT (c : Char) : Bool :=
  c == 'A' || c == 'C' || c == 'G' || c == 'T'

/-- The pydantic field pattern ^[ACGT]+$: a non-empty string all of whose
characters are A, C, G or T. -/
def acgtOk (l : List Char) : Bool :=
  !l.isEmpty && l.all isACGT

/-- The admissible values of Variant.type (a pydantic Literal). -/
def variantTypes : List String := ["snp", "ins", "del", "complex", "mnp"]

/-- Raw field content of a Variant record (src/src/models.py, class Variant). -/
structure Variant where
  chrom : String
  pos : Int
  ref : List Char
  alt : List Char
  depth : Int
  ref_reads : Int
  alt_reads : Int
  maf : ℚ
  vtype : String
deriving DecidableEq, Repr

/-- Pydantic construction of a Variant: the field validators in declaration
order (pos gt 0, ref and alt matching ^[ACGT]+$, depth ge 0, ref_reads ge 0,
alt_reads ge 0, maf in [0,1], type a Literal), then the model validators
validate_alt_ref_equality and validate_read_depths.  A failure anywhere is a
construction-time rejection, modelled as none. -/
def mkVariant (v : Variant) : Option Variant :=
  if ¬ (0 < v.pos) then none
  else if ¬ acgtOk v.ref then none
  else if ¬ acgtOk v.alt then none
  else if ¬ (0 ≤ v.depth) then none
  else if ¬ (0 ≤ v.ref_reads) then none
  else if ¬ (0 ≤ v.alt_reads) then none
  else if ¬ (0 ≤ v.maf ∧ v.maf ≤ 1) then none
  else if ¬ (variantTypes.contains v.vtype) then none
  else if v.alt = v.ref then none
  else if v.depth < v.ref_reads + v.alt_reads then none
  else some v

/-- The per-field constraints of the data model: positive position, non-empty
A/C/G/T reference and alternate, non-negative depth and read counts, and an
admissible variant-type literal. -/
def fieldConstraints (v : Variant) : Prop :=
  0 < v.pos ∧ acgtOk v.ref = true ∧ acgtOk v.alt = true ∧ 0 ≤ v.depth ∧
    0 ≤ v.ref_reads ∧ 0 ≤ v.alt_reads ∧ variantTypes.contains v.vtype = true

instance (v : Variant) : Decidable (fieldConstraints v) := by
  unfold fieldConstraints; infer_instance

/-- The model-level invariants checked after field validation: the alternate
differs from the reference, reads do not exceed depth, and the minor allele
frequency lies in [0,1]. -/
def modelInvariants (v : Variant) : Prop :=
  v.alt ≠ v.ref ∧ v.ref_reads + v.alt_reads ≤ v.depth ∧ 0 ≤ v.maf ∧ v.maf ≤ 1

instance (v : Variant) : Decidable (modelInvariants v) := by
  unfold modelInvariants; infer_instance

/-- C4: constructing a Variant fails whenever the alternate equals the
reference, or the read counts exceed the depth, or the minor allele frequency
is outside [0,1]; and construction succeeds for every raw tuple satisfying the
field constraints of the data model together with these invariants. -/
theorem variant_construction_validates (v : Variant) :
    ((v.alt = v.ref ∨ v.depth < v.ref_reads + v.alt_reads ∨
        v.maf < 0 ∨ 1 < v.maf) → mkVariant v = none) ∧
      (fieldConstraints v → modelInvariants v → (mkVariant v).isSome = true) := by
  constructor
  · intro h
    unfold mkVariant
    split_ifs with h1 h2 h3 h4 h5 h6 h7 h8 h9 h10 <;> try rfl
    exfalso
    rcases h with h | h | h | h
    · exact h9 h
    · exact absurd h (not_lt.mpr (le_of_not_lt h10))
    · exact absurd h7.1 (not_le.mpr h)
    · exact absurd h7.2 (not_le.mpr h)
  · intro hf hi
    obtain ⟨hpos, href, halt, hdep, hrr, har, hty⟩ := hf
    obtain ⟨hne, hsum, hm0, hm1⟩ := hi
    unfold mkVariant
    split_ifs <;> simp_all <;> omega

/-- Concrete instantiation of the construction theorem: a fully valid record is
accepted, and the same record with alternate equal to reference is rejected. -/
theorem variant_construction_validates_witness :
    (fieldConstraints
        { chrom := "1", pos := 100, ref := ['A'], alt := ['T'], depth := 10,
          ref_reads := 4, alt_reads := 5, maf := 1/4, vtype := "snp" } ∧
      modelInvariants
        { chrom := "1", pos := 100, ref := ['A'], alt := ['T'], depth := 10,
          ref_reads := 4, alt_reads := 5, maf := 1/4, vtype := "snp" } ∧
      (mkVariant
        { chrom := "1", pos := 100, ref := ['A'], alt := ['T'], depth := 10,
          ref_reads := 4, alt_reads := 5, maf := 1/4, vtype := "snp" }).isSome
        = true) ∧
      mkVariant
        { chrom := "1", pos := 100, ref := ['A'], alt := ['A'], depth := 10,
          ref_reads := 4, alt_reads := 5, maf := 1/4, vtype := "snp" } = none := by
  have hf : fieldConstraints
      { chrom := "1", pos := 100, ref := ['A'], alt := ['T'], depth := 10,
        ref_reads := 4, alt_reads := 5, maf := 1/4, vtype := "snp" } :=
    ⟨by decide, by decide, by decide, by decide, by decide, by decide, by decide⟩
  have hi : modelInvariants
      { chrom := "1", pos := 100, ref := ['A'], alt := ['T'], depth := 10,
        ref_reads := 4, alt_reads := 5, maf := 1/4, vtype := "snp" } :=
    ⟨by decide, by decide, by norm_num, by norm_num⟩
  exact ⟨⟨hf, hi, (variant_construction_validates _).2 hf hi⟩,
    (variant_construction_validates _).1 (Or.inl rfl)⟩

/- Coordinate normalization, embedded from src/src/compute_hgvs.py
(function make_hgvs). -/

/-- The first while loop of make_hgvs: starting from index i, advance while
both strings have a character at the index and those characters agree.
Returns the final index, i.e. the length of the shared prefix. -/
def prefixLoop (ref alt : List Char) (i : Nat) : Nat :=
  if h : i < ref.length ∧ i < alt.length ∧ ref.getD i 'A' = alt.getD i 'A' then
    prefixLoop ref alt (i + 1)
  else i
termination_by ref.length - i
decreasing_by omega

/-- The second while loop of make_hgvs: starting from count s, advance while
both trimmed strings have a character at negative index -(s+1) (that is, at
position length - 1 - s) and those characters agree.  Returns the number of
shared suffix characters trimmed. -/
def suffixLoop (refT altT : List Char) (s : Nat) : Nat :=
  if h : s < refT.length ∧ s < altT.length ∧
      refT.getD (refT.length - 1 - s) 'A' = altT.getD (altT.length - 1 - s) 'A' then
    suffixLoop refT altT (s + 1)
  else s
termination_by refT.length - s
decreasing_by omega

/-- make_hgvs from src/src/compute_hgvs.py: trim the shared prefix, advance
pos, trim the shared suffix (python slice [:-suffix] guarded by suffix > 0),
then classify into substitution, pure deletion, pure insertion or delins and
build the corresponding HGVS string. -/
def make_hgvs (chrom : String) (pos : Int) (ref alt : List Char) : String × String :=
  let p := prefixLoop ref alt 0
  let ref_trimmed := ref.drop p
  let alt_trimmed := alt.drop p
  let pos1 := pos + p
  let suffix := suffixLoop ref_trimmed alt_trimmed 0
  let ref_final :=
    if suffix > 0 then ref_trimmed.take (ref_trimmed.length - suffix) else ref_trimmed
  let alt_final :=
    if suffix > 0 then alt_trimmed.take (alt_trimmed.length - suffix) else alt_trimmed
  if ref_final.length = 1 ∧ alt_final.length = 1 then
    (chrom ++ ":g." ++ toString pos1 ++ String.mk ref_final ++ ">" ++
      String.mk alt_final, "sub")
  else if ref_final.length > 0 ∧ alt_final.length = 0 then
    if ref_final.length = 1 then
      (chrom ++ ":g." ++ toString pos1 ++ "del", "del")
    else
      (chrom ++ ":g." ++ toString pos1 ++ "_" ++
        toString (pos1 + ref_final.length - 1) ++ "del", "del")
  else if ref_final.length = 0 ∧ alt_final.length > 0 then
    (chrom ++ ":g." ++ toString (pos1 - 1) ++ "_" ++ toString pos1 ++ "ins" ++
      String.mk alt_final, "ins")
  else
    (chrom ++ ":g." ++ toString pos1 ++ "_" ++
      toString (pos1 + ref_final.length - 1) ++ "delins" ++
      String.mk alt_final, "delins")

/-- Length of the longest shared prefix of two lists, by structural
recursion; the specification-level counterpart of the first trimming pass. -/
def cpl : List Char → List Char → Nat
  | x :: xs, y :: ys => if x = y then cpl xs ys + 1 else 0
  | _, _ => 0

/-- Modelled from the claim wording: trim the longest shared prefix and
advance pos by its length, then trim the shared suffix of the remainders only
while both remainders are non-empty (realised as the longest shared prefix of
the reversed remainders, which stops as soon as either remainder is
exhausted), and classify on the lengths of the doubly trimmed remainders. -/
def hgvsFromSpec (chrom : String) (pos : Int) (ref alt : List Char) : String × String :=
  let p := cpl ref alt
  let pos2 := pos + p
  let r0 := ref.drop p
  let a0 := alt.drop p
  let s := cpl r0.reverse a0.reverse
  let R := r0.take (r0.length - s)
  let A := a0.take (a0.length - s)
  if R.length = 1 ∧ A.length = 1 then
    (chrom ++ ":g." ++ toString pos2 ++ String.mk R ++ ">" ++ String.mk A, "sub")
  else if R.length = 1 ∧ A.length = 0 then
    (chrom ++ ":g." ++ toString pos2 ++ "del", "del")
  else if R.length ≥ 2 ∧ A.length = 0 then
    (chrom ++ ":g." ++ toString pos2 ++ "_" ++
      toString (pos2 + R.length - 1) ++ "del", "del")
  else if R.length = 0 then
    (chrom ++ ":g." ++ toString (pos2 - 1) ++ "_" ++ toString pos2 ++ "ins" ++
      String.mk A, "ins")
  else
    (chrom ++ ":g." ++ toString pos2 ++ "_" ++
      toString (pos2 + R.length - 1) ++ "delins" ++ String.mk A, "delins")

theorem cpl_nil_left (l : List Char) : cpl [] l = 0 := by
  cases l <;> rfl

theorem cpl_nil_right (l : List Char) : cpl l [] = 0 := by
  cases l <;> rfl

theorem cpl_cons_eq (x : Char) (xs ys : List Char) :
    cpl (x :: xs) (x :: ys) = cpl xs ys + 1 := by
  simp [cpl]

theorem cpl_cons_ne {x y : Char} (h : x ≠ y) (xs ys : List Char) :
    cpl (x :: xs) (y :: ys) = 0 := by
  simp [cpl, h]

theorem cpl_le_left (l1 l2 : List Char) : cpl l1 l2 ≤ l1.length := by
  induction l1 generalizing l2 with
  | nil => simp [cpl_nil_left]
  | cons x xs ih =>
    cases l2 with
    | nil => simp [cpl_nil_right]
    | cons y ys =>
      by_cases h : x = y
      · have := ih ys
        simp only [cpl, if_pos h, List.length_cons]
        omega
      · simp [cpl, h]

theorem cpl_le_right (l1 l2 : List Char) : cpl l1 l2 ≤ l2.length := by
  induction l1 generalizing l2 with
  | nil => simp [cpl_nil_left]
  | cons x xs ih =>
    cases l2 with
    | nil => simp [cpl_nil_right]
    | cons y ys =>
      by_cases h : x = y
      · have := ih ys
        simp only [cpl, if_pos h, List.length_cons]
        omega
      · simp [cpl, h]

theorem cpl_take (l1 l2 : List Char) : l1.take (cpl l1 l2) = l2.take (cpl l1 l2) := by
  induction l1 generalizing l2 with
  | nil => simp [cpl_nil_left]
  | cons x xs ih =>
    cases l2 with
    | nil => simp [cpl_nil_right]
    | cons y ys =>
      by_cases h : x = y
      · subst h
        rw [cpl_cons_eq, List.take_succ_cons, List.take_succ_cons, ih ys]
      · simp [cpl, h]

theorem cpl_full (l1 l2 : List Char) (h1 : cpl l1 l2 = l1.length)
    (h2 : cpl l1 l2 = l2.length) : l1 = l2 := by
  induction l1 generalizing l2 with
  | nil =>
    cases l2 with
    | nil => rfl
    | cons y ys => rw [cpl_nil_left] at h2; simp at h2
  | cons x xs ih =>
    cases l2 with
    | nil => rw [cpl_nil_right] at h1; simp at h1
    | cons y ys =>
      by_cases h : x = y
      · subst h
        rw [cpl_cons_eq, List.length_cons] at h1 h2
        rw [ih ys (by omega) (by omega)]
      · simp [cpl, h] at h1

theorem cpl_drop_head_ne (l1 l2 : List Char) (x y : Char) (xs ys : List Char)
    (h1 : l1.drop (cpl l1 l2) = x :: xs) (h2 : l2.drop (cpl l1 l2) = y :: ys) :
    x ≠ y := by
  induction l1 generalizing l2 x y xs ys with
  | nil => rw [cpl_nil_left] at h1; simp at h1
  | cons a as ih =>
    cases l2 with
    | nil => rw [cpl_nil_right] at h2; simp at h2
    | cons b bs =>
      by_cases h : a = b
      · subst h
        rw [cpl_cons_eq, List.drop_succ_cons] at h1 h2
        exact ih bs x y xs ys h1 h2
      · rw [cpl_cons_ne h, List.drop_zero] at h1 h2
        injection h1 with e1 _
        injection h2 with e2 _
        subst e1
        subst e2
        exact h

theorem getD_rev (l : List Char) (s : Nat) (h : s < l.length) (d : Char) :
    l.getD (l.length - 1 - s) d = l.reverse.getD s d := by
  have h1 : l.length - 1 - s < l.length := by omega
  have h2 : s < l.reverse.length := by simpa using h
  rw [List.getD_eq_getElem _ _ h1, List.getD_eq_getElem _ _ h2]
  rw [List.getElem_reverse]

theorem prefixLoop_eq (ref alt : List Char) (i : Nat) :
    prefixLoop ref alt i = i + cpl (ref.drop i) (alt.drop i) := by
  refine prefixLoop.induct ref alt
    (fun i => prefixLoop ref alt i = i + cpl (ref.drop i) (alt.drop i)) ?_ ?_ i
  · intro i h ih
    obtain ⟨h1, h2, h3⟩ := h
    rw [prefixLoop, dif_pos ⟨h1, h2, h3⟩, ih]
    rw [List.getD_eq_getElem _ _ h1, List.getD_eq_getElem _ _ h2] at h3
    rw [List.drop_eq_getElem_cons h1, List.drop_eq_getElem_cons h2, h3, cpl_cons_eq]
    omega
  · intro i h
    rw [prefixLoop, dif_neg h]
    by_cases hA : i < ref.length
    · by_cases hB : i < alt.length
      · have h3 : ref.getD i 'A' ≠ alt.getD i 'A' := fun hc => h ⟨hA, hB, hc⟩
        rw [List.getD_eq_getElem _ _ hA, List.getD_eq_getElem _ _ hB] at h3
        rw [List.drop_eq_getElem_cons hA, List.drop_eq_getElem_cons hB,
          cpl_cons_ne h3]
        omega
      · rw [show List.drop i alt = [] from List.drop_eq_nil_of_le (by omega),
          cpl_nil_right]
        omega
    · rw [show List.drop i ref = [] from List.drop_eq_nil_of_le (by omega),
        cpl_nil_left]
      omega

theorem suffixLoop_eq (refT altT : List Char) (s : Nat) :
    suffixLoop refT altT s = prefixLoop refT.reverse altT.reverse s := by
  refine suffixLoop.induct refT altT
    (fun s => suffixLoop refT altT s = prefixLoop refT.reverse altT.reverse s) ?_ ?_ s
  · intro s h ih
    obtain ⟨h1, h2, h3⟩ := h
    have h1' : s < refT.reverse.length := by simpa using h1
    have h2' : s < altT.reverse.length := by simpa using h2
    have h3' : refT.reverse.getD s 'A' = altT.reverse.getD s 'A' := by
      rw [← getD_rev _ _ h1, ← getD_rev _ _ h2]; exact h3
    rw [suffixLoop, dif_pos ⟨h1, h2, h3⟩, ih]
    conv_rhs => rw [prefixLoop, dif_pos ⟨h1', h2', h3'⟩]
  · intro s h
    have hneg : ¬ (s < refT.reverse.length ∧ s < altT.reverse.length ∧
        refT.reverse.getD s 'A' = altT.reverse.getD s 'A') := by
      intro hc
      obtain ⟨hc1, hc2, hc3⟩ := hc
      have hc1' : s < refT.length := by simpa using hc1
      have hc2' : s < altT.length := by simpa using hc2
      exact h ⟨hc1', hc2', by
        rw [getD_rev _ _ hc1', getD_rev _ _ hc2']; exact hc3⟩
    rw [suffixLoop, dif_neg h, prefixLoop, dif_neg hneg]

theorem prefixLoop_zero (l1 l2 : List Char) : prefixLoop l1 l2 0 = cpl l1 l2 := by
  rw [prefixLoop_eq]
  simp

theorem suffixLoop_zero (l1 l2 : List Char) :
    suffixLoop l1 l2 0 = cpl l1.reverse l2.reverse := by
  rw [suffixLoop_eq, prefixLoop_zero]

theorem ite_take (l : List Char) (s : Nat) :
    (if s > 0 then l.take (l.length - s) else l) = l.take (l.length - s) := by
  rcases Nat.eq_zero_or_pos s with h | h
  · subst h
    simp
  · rw [if_pos h]

theorem trim_not_both_empty (ref alt : List Char) (hne : ref ≠ alt)
    (p s : Nat) (hp : p = cpl ref alt)
    (hs : s = cpl (ref.drop p).reverse (alt.drop p).reverse) :
    ¬ ((ref.drop p).take ((ref.drop p).length - s) = [] ∧
       (alt.drop p).take ((alt.drop p).length - s) = []) := by
  rintro ⟨hR, hA⟩
  have hsr : s ≤ (ref.drop p).length := by
    have := cpl_le_left (ref.drop p).reverse (alt.drop p).reverse
    rw [← hs] at this
    simpa using this
  have hsa : s ≤ (alt.drop p).length := by
    have := cpl_le_right (ref.drop p).reverse (alt.drop p).reverse
    rw [← hs] at this
    simpa using this
  have hr1 : (ref.drop p).length ≤ s := by
    have := congrArg List.length hR
    rw [List.length_take, Nat.min_eq_left (Nat.sub_le _ _)] at this
    exact Nat.le_of_sub_eq_zero this
  have ha1 : (alt.drop p).length ≤ s := by
    have := congrArg List.length hA
    rw [List.length_take, Nat.min_eq_left (Nat.sub_le _ _)] at this
    exact Nat.le_of_sub_eq_zero this
  rcases Nat.eq_zero_or_pos s with hs0 | hspos
  · have hr0nil : ref.drop p = [] := List.length_eq_zero.mp (by omega)
    have ha0nil : alt.drop p = [] := List.length_eq_zero.mp (by omega)
    apply hne
    have h1 : ref = ref.take p := by
      conv_lhs => rw [← List.take_append_drop p ref]
      rw [hr0nil, List.append_nil]
    have h2 : alt = alt.take p := by
      conv_lhs => rw [← List.take_append_drop p alt]
      rw [ha0nil, List.append_nil]
    rw [h1, h2, hp]
    exact cpl_take ref alt
  · have hlr : (ref.drop p).length = s := le_antisymm hr1 hsr
    have hla : (alt.drop p).length = s := le_antisymm ha1 hsa
    obtain ⟨x, xs, hx⟩ := List.exists_cons_of_ne_nil
      (show ref.drop p ≠ [] by
        intro h
        rw [h] at hlr
        simp at hlr
        omega)
    obtain ⟨y, ys, hy⟩ := List.exists_cons_of_ne_nil
      (show alt.drop p ≠ [] by
        intro h
        rw [h] at hla
        simp at hla
        omega)
    have hxy : x ≠ y := by
      apply cpl_drop_head_ne ref alt x y xs ys
      · rw [← hp]; exact hx
      · rw [← hp]; exact hy
    have heq : ref.drop p = alt.drop p := by
      apply List.reverse_injective
      apply cpl_full
      · rw [← hs, List.length_reverse]
        exact hlr.symm
      · rw [← hs, List.length_reverse]
        exact hla.symm
    rw [hx, hy] at heq
    injection heq with e _
    exact hxy e

theorem make_hgvs_eq_hgvsFromSpec (chrom : String) (pos : Int) (ref alt : List Char)
    (hne : ref ≠ alt) :
    make_hgvs chrom pos ref alt = hgvsFromSpec chrom pos ref alt := by
  have nb := trim_not_both_empty ref alt hne (cpl ref alt)
    (cpl (ref.drop (cpl ref alt)).reverse (alt.drop (cpl ref alt)).reverse) rfl rfl
  have nb' : ¬ (((ref.drop (cpl ref alt)).take ((ref.drop (cpl ref alt)).length -
        cpl (ref.drop (cpl ref alt)).reverse (alt.drop (cpl ref alt)).reverse)).length
          = 0 ∧
      ((alt.drop (cpl ref alt)).take ((alt.drop (cpl ref alt)).length -
        cpl (ref.drop (cpl ref alt)).reverse (alt.drop (cpl ref alt)).reverse)).length
          = 0) := by
    intro hc
    exact nb ⟨List.length_eq_zero.mp hc.1, List.length_eq_zero.mp hc.2⟩
  simp only [make_hgvs, hgvsFromSpec, prefixLoop_zero, suffixLoop_zero, ite_take]
  split_ifs <;> first | rfl | (exfalso; omega)

/-- C2: for every chrom, pos, and non-empty ref and alt over {A,C,G,T} with
ref ≠ alt, make_hgvs first trims the longest shared prefix of ref and alt and
advances pos by its length, then trims the shared suffix of the remainders
only while both remainders are non-empty, and returns exactly the
substitution, deletion, insertion or delins notation and class dictated by
the lengths of the doubly trimmed remainders — that is, it agrees with
the specification-level function hgvsFromSpec. -/
theorem normalize_formula (chrom : String) (pos : Int) (ref alt : List Char)
    (href : acgtOk ref = true) (halt : acgtOk alt = true) (hne : ref ≠ alt) :
    make_hgvs chrom pos ref alt = hgvsFromSpec chrom pos ref alt :=
  make_hgvs_eq_hgvsFromSpec chrom pos ref alt hne

/-- Concrete instantiation of the normalization theorem on the specification's
own trimming example AATG/AACG. -/
theorem normalize_formula_witness :
    acgtOk ['A', 'A', 'T', 'G'] = true ∧ acgtOk ['A', 'A', 'C', 'G'] = true ∧
      ['A', 'A', 'T', 'G'] ≠ ['A', 'A', 'C', 'G'] ∧
      make_hgvs "1" 100 ['A', 'A', 'T', 'G'] ['A', 'A', 'C', 'G'] =
        hgvsFromSpec "1" 100 ['A', 'A', 'T', 'G'] ['A', 'A', 'C', 'G'] :=
  ⟨by decide, by decide, by decide,
    normalize_formula "1" 100 _ _ (by decide) (by decide) (by decide)⟩

/-- The doubly trimmed reference remainder computed by make_hgvs (its local
variable ref_final). -/
def refFinal (ref alt : List Char) : List Char :=
  let p := prefixLoop ref alt 0
  let ref_trimmed := ref.drop p
  let alt_trimmed := alt.drop p
  let suffix := suffixLoop ref_trimmed alt_trimmed 0
  if suffix > 0 then ref_trimmed.take (ref_trimmed.length - suffix) else ref_trimmed

/-- The doubly trimmed alternate remainder computed by make_hgvs (its local
variable alt_final). -/
def altFinal (ref alt : List Char) : List Char :=
  let p := prefixLoop ref alt 0
  let ref_trimmed := ref.drop p
  let alt_trimmed := alt.drop p
  let suffix := suffixLoop ref_trimmed alt_trimmed 0
  if suffix > 0 then alt_trimmed.take (alt_trimmed.length - suffix) else alt_trimmed

/-- C3: for every chrom, pos, and non-empty ref and alt over {A,C,G,T} with
ref ≠ alt, make_hgvs terminates in one of the four classification branches,
its variant class is an element of {sub, ins, del, delins}, and
prefix-then-suffix trimming never leaves both remainders empty. -/
theorem normalize_class_total (chrom : String) (pos : Int) (ref alt : List Char)
    (href : acgtOk ref = true) (halt : acgtOk alt = true) (hne : ref ≠ alt) :
    ((make_hgvs chrom pos ref alt).2 = "sub" ∨
      (make_hgvs chrom pos ref alt).2 = "ins" ∨
      (make_hgvs chrom pos ref alt).2 = "del" ∨
      (make_hgvs chrom pos ref alt).2 = "delins") ∧
      ¬ (refFinal ref alt = [] ∧ altFinal ref alt = []) := by
  constructor
  · simp only [make_hgvs]
    split_ifs <;> simp
  · have h1 : refFinal ref alt = (ref.drop (cpl ref alt)).take
        ((ref.drop (cpl ref alt)).length -
          cpl (ref.drop (cpl ref alt)).reverse (alt.drop (cpl ref alt)).reverse) := by
      simp only [refFinal, prefixLoop_zero, suffixLoop_zero, ite_take]
    have h2 : altFinal ref alt = (alt.drop (cpl ref alt)).take
        ((alt.drop (cpl ref alt)).length -
          cpl (ref.drop (cpl ref alt)).reverse (alt.drop (cpl ref alt)).reverse) := by
      simp only [altFinal, prefixLoop_zero, suffixLoop_zero, ite_take]
    rw [h1, h2]
    exact trim_not_both_empty ref alt hne _ _ rfl rfl

/-- Concrete instantiation of the classification totality theorem. -/
theorem normalize_class_total_witness :
    acgtOk ['T', 'A', 'C', 'G'] = true ∧ acgtOk ['T', 'T', 'T', 'A', 'C', 'G'] = true ∧
      ['T', 'A', 'C', 'G'] ≠ ['T', 'T', 'T', 'A', 'C', 'G'] ∧
      (((make_hgvs "1" 100 ['T', 'A', 'C', 'G'] ['T', 'T', 'T', 'A', 'C', 'G']).2 = "sub" ∨
        (make_hgvs "1" 100 ['T', 'A', 'C', 'G'] ['T', 'T', 'T', 'A', 'C', 'G']).2 = "ins" ∨
        (make_hgvs "1" 100 ['T', 'A', 'C', 'G'] ['T', 'T', 'T', 'A', 'C', 'G']).2 = "del" ∨
        (make_hgvs "1" 100 ['T', 'A', 'C', 'G'] ['T', 'T', 'T', 'A', 'C', 'G']).2 = "delins") ∧
        ¬ (refFinal ['T', 'A', 'C', 'G'] ['T', 'T', 'T', 'A', 'C', 'G'] = [] ∧
          altFinal ['T', 'A', 'C', 'G'] ['T', 'T', 'T', 'A', 'C', 'G'] = [])) :=
  ⟨by decide, by decide, by decide,
    normalize_class_total "1" 100 _ _ (by decide) (by decide) (by decide)⟩

/- VEP response parsing and the annotation merge, embedded from
src/src/vep.py (get_genes_for_most_severe_consequence) and
src/src/annotation.py (build_annotation). -/

/-- One element of transcript_consequences in a VEP response record. -/
structure TranscriptConsequence where
  gene_symbol : String
  consequence_terms : List String
deriving DecidableEq, Repr

/-- One element of the VEP batch response: most_severe_consequence is always
present (indexing it raises otherwise), transcript_consequences may be
absent, in which case dict.get substitutes the empty list. -/
structure VepRecord where
  most_severe_consequence : String
  transcript_consequences : Option (List TranscriptConsequence)
deriving DecidableEq, Repr

/-- The for loop of get_genes_for_most_severe_consequence: return the gene
symbol of the first transcript whose consequence_terms contains the
most-severe label; falling through returns an implicit None. -/
def findGene (mostSevere : String) : List TranscriptConsequence → Option String
  | [] => none
  | t :: ts =>
    if t.consequence_terms.contains mostSevere then some t.gene_symbol
    else findGene mostSevere ts

/-- get_genes_for_most_severe_consequence from src/src/vep.py. -/
def get_genes_for_most_severe_consequence (vep_record : VepRecord) : Option String :=
  findGene vep_record.most_severe_consequence
    (vep_record.transcript_consequences.getD [])

/-- Round half to even at integer precision, as Python's round builtin
behaves on exact ties; other values go to the nearest integer. -/
def roundHalfEven (q : ℚ) : ℤ :=
  if q - ⌊q⌋ < 1/2 then ⌊q⌋
  else if 1/2 < q - ⌊q⌋ then ⌊q⌋ + 1
  else if ⌊q⌋ % 2 = 0 then ⌊q⌋ else ⌊q⌋ + 1

/-- Python round(x, 2): scale by 100, round half to even, scale back. -/
def pythonRound2 (q : ℚ) : ℚ := (roundHalfEven (q * 100) : ℚ) / 100

/-- An AnnotatedVariant (src/src/models.py): every Variant field, carried
here as base, plus alt_perc, gene and consequence. -/
structure AnnotatedVariant where
  base : Variant
  alt_perc : ℚ
  gene : Option String
  consequence : Option String
deriving DecidableEq, Repr

/-- Python runtime errors the response loop of build_annotation can raise. -/
inductive PyError where
  | indexError
  | zeroDivisionError
deriving DecidableEq, Repr

/-- The body of the response loop of build_annotation for one response
element and its index-matched variant: computing alt_perc raises
ZeroDivisionError when the variant's read counts sum to zero; otherwise the
AnnotatedVariant carries the gene from
get_genes_for_most_severe_consequence, the response's
most_severe_consequence, and round(alt_reads * 100 / (alt_reads +
ref_reads), 2). -/
def annotateElem (v : Variant) (vep_data : VepRecord) :
    Except PyError AnnotatedVariant :=
  if v.alt_reads + v.ref_reads = 0 then .error .zeroDivisionError
  else .ok
    { base := v
      alt_perc := pythonRound2 (((v.alt_reads : ℚ) * 100) /
        ((v.alt_reads : ℚ) + (v.ref_reads : ℚ)))
      gene := get_genes_for_most_severe_consequence vep_data
      consequence := some vep_data.most_severe_consequence }

/-- The response loop of build_annotation: enumerate the response list with
index idx, index the request batch at idx (an IndexError when the response
is longer than the batch), and append one AnnotatedVariant per response
element. -/
def buildLoop (variant_data_batch : List Variant) (idx : Nat) :
    List VepRecord → Except PyError (List AnnotatedVariant)
  | [] => .ok []
  | vep_data :: rest =>
    match variant_data_batch[idx]? with
    | none => .error .indexError
    | some v =>
      match annotateElem v vep_data with
      | .error e => .error e
      | .ok a =>
        match buildLoop variant_data_batch (idx + 1) rest with
        | .error e => .error e
        | .ok tl => .ok (a :: tl)

/-- build_annotation from src/src/annotation.py, with the VEP batch response
supplied explicitly (make_vep_request performs the external lookup). -/
def build_annotation (variant_data_batch : List Variant)
    (vep_data_batch : List VepRecord) : Except PyError (List AnnotatedVariant) :=
  buildLoop variant_data_batch 0 vep_data_batch

theorem findGene_eq_find (mostSevere : String) (ts : List TranscriptConsequence) :
    findGene mostSevere ts =
      (ts.find? (fun t => t.consequence_terms.contains mostSevere)).map
        TranscriptConsequence.gene_symbol := by
  induction ts with
  | nil => rfl
  | cons t ts ih =>
    by_cases h : t.consequence_terms.contains mostSevere
    · have hf : List.find? (fun t => t.consequence_terms.contains mostSevere)
          (t :: ts) = some t := List.find?_cons_of_pos ts (by simpa using h)
      rw [findGene, if_pos h, hf]
      rfl
    · have hf : List.find? (fun t => t.consequence_terms.contains mostSevere)
          (t :: ts) = List.find? (fun t => t.consequence_terms.contains mostSevere)
          ts := List.find?_cons_of_neg ts (by simpa using h)
      rw [findGene, if_neg h, hf, ih]

/-- C6 counterexample: a response element carrying most_severe_consequence
"intron_variant" and no transcript_consequences produces a record whose gene
is absent but whose consequence is present, contradicting the claim that
both fields are absent when no transcript consequence matches. -/
theorem consequence_absent_counterexample :
    (annotateElem
        { chrom := "1", pos := 1, ref := ['A'], alt := ['T'], depth := 10,
          ref_reads := 5, alt_reads := 5, maf := 0, vtype := "snp" }
        { most_severe_consequence := "intron_variant",
          transcript_consequences := none }).map
      (fun a => (a.gene, a.consequence)) =
      .ok (none, some "intron_variant") := by
  rfl

/-- C6 amended: for every response element, the gene is the gene symbol of
the first transcript consequence (in list order) whose consequence-term set
contains the element's most-severe-consequence label, hence absent when no
transcript matches or none are present; the consequence field, however, is
always set to the element's most-severe-consequence label rather than left
absent. -/
theorem gene_first_match_consequence_always (v : Variant) (vep_data : VepRecord)
    (a : AnnotatedVariant) (h : annotateElem v vep_data = .ok a) :
    a.gene = ((vep_data.transcript_consequences.getD []).find?
        (fun t => t.consequence_terms.contains
          vep_data.most_severe_consequence)).map
        TranscriptConsequence.gene_symbol ∧
      a.consequence = some vep_data.most_severe_consequence := by
  unfold annotateElem at h
  split_ifs at h
  injection h with h
  subst h
  exact ⟨findGene_eq_find _ _, rfl⟩

/-- A sample validated variant with balanced read counts, used to
instantiate the annotation theorems. -/
def vSample : Variant :=
  { chrom := "1", pos := 1, ref := ['A'], alt := ['T'], depth := 10,
    ref_reads := 5, alt_reads := 5, maf := 0, vtype := "snp" }

/-- A sample transcript consequence matching the most severe label. -/
def tcSample : TranscriptConsequence :=
  { gene_symbol := "BRCA2", consequence_terms := ["missense_variant"] }

/-- A sample VEP response element carrying one matching transcript. -/
def recSample : VepRecord :=
  { most_severe_consequence := "missense_variant",
    transcript_consequences := some [tcSample] }

/-- The annotated record annotateElem produces from vSample and recSample. -/
def aSample : AnnotatedVariant :=
  { base := vSample
    alt_perc := pythonRound2 (((vSample.alt_reads : ℚ) * 100) /
      ((vSample.alt_reads : ℚ) + (vSample.ref_reads : ℚ)))
    gene := some "BRCA2"
    consequence := some "missense_variant" }

/-- Concrete instantiation of the amended gene/consequence theorem: the
matching transcript yields its gene symbol, and the consequence label is
recorded. -/
theorem gene_first_match_consequence_always_witness :
    annotateElem vSample recSample = .ok aSample ∧
      aSample.gene = ((recSample.transcript_consequences.getD []).find?
          (fun t => t.consequence_terms.contains
            recSample.most_severe_consequence)).map
          TranscriptConsequence.gene_symbol ∧
        aSample.consequence = some recSample.most_severe_consequence := by
  have h : annotateElem vSample recSample = .ok aSample := by rfl
  exact ⟨h, gene_first_match_consequence_always vSample recSample aSample h⟩

theorem roundHalfEven_bounds (q : ℚ) :
    ⌊q⌋ ≤ roundHalfEven q ∧ roundHalfEven q ≤ ⌈q⌉ := by
  have hfl : (⌊q⌋ : ℚ) ≤ q := Int.floor_le q
  have hceil : ⌊q⌋ ≤ ⌈q⌉ := Int.floor_le_ceil q
  unfold roundHalfEven
  split_ifs with h1 h2 h3
  · exact ⟨le_refl _, hceil⟩
  · refine ⟨by omega, ?_⟩
    have : (⌊q⌋ : ℚ) < q := by linarith
    have := Int.add_one_le_ceil_iff.mpr this
    omega
  · exact ⟨le_refl _, hceil⟩
  · refine ⟨by omega, ?_⟩
    have hr : q - ⌊q⌋ = 1/2 := by linarith
    have : (⌊q⌋ : ℚ) < q := by linarith
    have := Int.add_one_le_ceil_iff.mpr this
    omega

theorem pythonRound2_range (q : ℚ) (h0 : 0 ≤ q) (h1 : q ≤ 100) :
    0 ≤ pythonRound2 q ∧ pythonRound2 q ≤ 100 := by
  obtain ⟨hl, hu⟩ := roundHalfEven_bounds (q * 100)
  unfold pythonRound2
  constructor
  · apply div_nonneg _ (by norm_num : (0:ℚ) ≤ 100)
    have hf : (0 : ℤ) ≤ ⌊q * 100⌋ := Int.floor_nonneg.mpr (by positivity)
    have hz : (0 : ℤ) ≤ roundHalfEven (q * 100) := le_trans hf hl
    exact_mod_cast hz
  · rw [div_le_iff (by norm_num : (0:ℚ) < 100)]
    have hc : ⌈q * 100⌉ ≤ (10000 : ℤ) := Int.ceil_le.mpr (by push_cast; linarith)
    have : roundHalfEven (q * 100) ≤ (10000 : ℤ) := le_trans hu hc
    calc (roundHalfEven (q * 100) : ℚ) ≤ (10000 : ℚ) := by exact_mod_cast this
      _ = 100 * 100 := by norm_num

/-- C7 counterexample: with alt_reads 1 and ref_reads 2 the stored alt_perc
is the two-decimal rounding 33.33, not the exact ratio 100/3 that the claim
asserts. -/
theorem alt_percent_exact_counterexample :
    (annotateElem
        { chrom := "1", pos := 1, ref := ['A'], alt := ['T'], depth := 3,
          ref_reads := 2, alt_reads := 1, maf := 0, vtype := "snp" }
        { most_severe_consequence := "intron_variant",
          transcript_consequences := none }).map (fun a => a.alt_perc) =
      .ok (3333/100 : ℚ) ∧
      (3333/100 : ℚ) ≠ (((1 : Int) : ℚ) * 100) / (((1 : Int) : ℚ) + ((2 : Int) : ℚ)) := by
  have hq : ((((1 : Int) : ℚ) * 100) / (((1 : Int) : ℚ) + ((2 : Int) : ℚ))) =
      100/3 := by norm_num
  have hfl : ⌊(100/3 : ℚ) * 100⌋ = 3333 := by
    rw [Int.floor_eq_iff]
    constructor
    · push_cast
      norm_num
    · push_cast
      norm_num
  have hrhe : roundHalfEven ((100/3 : ℚ) * 100) = 3333 := by
    unfold roundHalfEven
    rw [hfl]
    rw [if_pos (by push_cast; norm_num)]
  have hpr : pythonRound2 (100/3 : ℚ) = 3333/100 := by
    unfold pythonRound2
    rw [hrhe]
    norm_num
  constructor
  · show Except.ok (pythonRound2 ((((1 : Int) : ℚ) * 100) /
        (((1 : Int) : ℚ) + ((2 : Int) : ℚ)))) = .ok (3333/100 : ℚ)
    rw [hq, hpr]
  · rw [hq]
    norm_num

/-- C7 amended: for every annotated variant produced by the response loop,
alt_perc equals alternate_reads * 100 / (alternate_reads + reference_reads)
computed from the originating Variant's read counts (not from the lookup
response) and rounded to two decimal places (round half to even), and lies
in [0, 100]. -/
theorem alt_percent_rounded_in_range (v : Variant) (vep_data : VepRecord)
    (a : AnnotatedVariant) (hrr : 0 ≤ v.ref_reads) (har : 0 ≤ v.alt_reads)
    (h : annotateElem v vep_data = .ok a) :
    a.alt_perc = pythonRound2 (((v.alt_reads : ℚ) * 100) /
        ((v.alt_reads : ℚ) + (v.ref_reads : ℚ))) ∧
      0 ≤ a.alt_perc ∧ a.alt_perc ≤ 100 := by
  unfold annotateElem at h
  split_ifs at h with hz
  injection h with h
  subst h
  refine ⟨rfl, ?_⟩
  have hsumz : 0 < v.alt_reads + v.ref_reads := by omega
  have hsum : (0 : ℚ) < (v.alt_reads : ℚ) + (v.ref_reads : ℚ) := by
    exact_mod_cast hsumz
  have haq : (0 : ℚ) ≤ (v.alt_reads : ℚ) := by exact_mod_cast har
  have hrq : (0 : ℚ) ≤ (v.ref_reads : ℚ) := by exact_mod_cast hrr
  have h0 : 0 ≤ ((v.alt_reads : ℚ) * 100) /
      ((v.alt_reads : ℚ) + (v.ref_reads : ℚ)) := by
    apply div_nonneg _ (le_of_lt hsum)
    linarith
  have h100 : ((v.alt_reads : ℚ) * 100) /
      ((v.alt_reads : ℚ) + (v.ref_reads : ℚ)) ≤ 100 := by
    rw [div_le_iff hsum]
    linarith
  exact pythonRound2_range _ h0 h100

/-- Concrete instantiation of the amended alt_perc theorem at balanced read
counts. -/
theorem alt_percent_rounded_in_range_witness :
    (0 ≤ vSample.ref_reads ∧ 0 ≤ vSample.alt_reads ∧
      annotateElem vSample recSample = .ok aSample) ∧
      (aSample.alt_perc = pythonRound2 (((vSample.alt_reads : ℚ) * 100) /
          ((vSample.alt_reads : ℚ) + (vSample.ref_reads : ℚ))) ∧
        0 ≤ aSample.alt_perc ∧ aSample.alt_perc ≤ 100) := by
  have h : annotateElem vSample recSample = .ok aSample := by rfl
  exact ⟨⟨by decide, by decide, h⟩,
    alt_percent_rounded_in_range vSample recSample aSample
      (by decide) (by decide) h⟩

/-- C8 counterexample: a batch of two variants paired with a one-element
(shorter) response is processed without any error and silently yields a
single record, contradicting the claim that every response-length mismatch
fails the batch with a non-recoverable error. -/
theorem short_response_silent_counterexample :
    ( build_annotation [vSample, vSample] [recSample]).map List.length =
      .ok 1 ∧
      ([recSample] : List VepRecord).length ≠
        ([vSample, vSample] : List Variant).length :=
  ⟨rfl, by decide⟩

theorem buildLoop_length_spec (batch : List Variant)
    (hdenom : ∀ v ∈ batch, v.alt_reads + v.ref_reads ≠ 0) :
    ∀ (resp : List VepRecord) (idx : Nat),
      (idx ≤ batch.length → batch.length < idx + resp.length →
        buildLoop batch idx resp = .error .indexError) ∧
      (idx + resp.length ≤ batch.length →
        ∃ l, buildLoop batch idx resp = .ok l ∧ l.length = resp.length) := by
  intro resp
  induction resp with
  | nil =>
    intro idx
    refine ⟨fun h1 h2 => ?_, fun h => ⟨[], rfl, rfl⟩⟩
    simp only [List.length_nil] at h2
    omega
  | cons r rest ih =>
    intro idx
    constructor
    · intro h1 h2
      rcases Nat.lt_or_ge idx batch.length with hlt | hge
      · have hv : batch[idx]? = some batch[idx] := List.getElem?_eq_getElem hlt
        have hmem : batch[idx] ∈ batch := List.getElem?_mem hv
        have hae : annotateElem batch[idx] r = .ok
            { base := batch[idx]
              alt_perc := pythonRound2 (((batch[idx].alt_reads : ℚ) * 100) /
                ((batch[idx].alt_reads : ℚ) + (batch[idx].ref_reads : ℚ)))
              gene := get_genes_for_most_severe_consequence r
              consequence := some r.most_severe_consequence } := by
          unfold annotateElem
          rw [if_neg (hdenom _ hmem)]
        have hrec := (ih (idx + 1)).1 (by omega) (by
          simp only [List.length_cons] at h2
          omega)
        simp only [buildLoop, hv, hae, hrec]
      · have hv : batch[idx]? = none := List.getElem?_eq_none hge
        simp only [buildLoop, hv]
    · intro h
      have hlt : idx < batch.length := by
        simp only [List.length_cons] at h
        omega
      have hv : batch[idx]? = some batch[idx] := List.getElem?_eq_getElem hlt
      have hmem : batch[idx] ∈ batch := List.getElem?_mem hv
      have hae : annotateElem batch[idx] r = .ok
          { base := batch[idx]
            alt_perc := pythonRound2 (((batch[idx].alt_reads : ℚ) * 100) /
              ((batch[idx].alt_reads : ℚ) + (batch[idx].ref_reads : ℚ)))
            gene := get_genes_for_most_severe_consequence r
            consequence := some r.most_severe_consequence } := by
        unfold annotateElem
        rw [if_neg (hdenom _ hmem)]
      obtain ⟨l, hl, hlen⟩ := (ih (idx + 1)).2 (by
        simp only [List.length_cons] at h
        omega)
      have hstep : buildLoop batch idx (r :: rest) = .ok
          ({ base := batch[idx]
             alt_perc := pythonRound2 (((batch[idx].alt_reads : ℚ) * 100) /
               ((batch[idx].alt_reads : ℚ) + (batch[idx].ref_reads : ℚ)))
             gene := get_genes_for_most_severe_consequence r
             consequence := some r.most_severe_consequence } :: l) := by
        simp only [buildLoop, hv, hae, hl]
      exact ⟨_, hstep, by simp [hlen]⟩

/-- C8 amended: when the lookup response is longer than the request's
variant list, processing the batch fails with an IndexError; but when the
response is shorter, build_annotation returns successfully with exactly one
record per response element — silently emitting fewer records than there are
input variants. -/
theorem response_length_mismatch (variant_data_batch : List Variant)
    (vep_data_batch : List VepRecord)
    (hdenom : ∀ v ∈ variant_data_batch, v.alt_reads + v.ref_reads ≠ 0) :
    (variant_data_batch.length < vep_data_batch.length →
      build_annotation variant_data_batch vep_data_batch =
        .error .indexError) ∧
      (vep_data_batch.length ≤ variant_data_batch.length →
        ∃ l, build_annotation variant_data_batch vep_data_batch = .ok l ∧
          l.length = vep_data_batch.length) := by
  have hs := buildLoop_length_spec variant_data_batch hdenom vep_data_batch 0
  exact ⟨fun h => hs.1 (by omega) (by omega), fun h => hs.2 (by omega)⟩

/-- Concrete instantiation of the response-length theorem: a longer response
raises IndexError, a shorter one silently yields a single record. -/
theorem response_length_mismatch_witness :
    build_annotation [vSample] [recSample, recSample] = .error .indexError ∧
      ∃ l, build_annotation [vSample, vSample] [recSample] = .ok l ∧
        l.length = 1 := by
  have hd1 : ∀ v ∈ ([vSample] : List Variant),
      v.alt_reads + v.ref_reads ≠ 0 := by
    intro v hv
    rw [List.mem_singleton] at hv
    subst hv
    decide
  have hd2 : ∀ v ∈ ([vSample, vSample] : List Variant),
      v.alt_reads + v.ref_reads ≠ 0 := by
    intro v hv
    rcases List.mem_cons.mp hv with h | h
    · subst h; decide
    · rw [List.mem_singleton] at h; subst h; decide
  exact ⟨(response_length_mismatch _ _ hd1).1 (by decide),
    (response_length_mismatch _ _ hd2).2 (by decide)⟩

/-- C10: a Variant with zero reference and alternate reads — permitted by
the data-model invariants with depth 0 — passes construction, yet the
annotation step fails with a ZeroDivisionError while computing alt_perc, so
batch annotation is not total over the set of constructible Variants. -/
theorem zero_reads_division_failure :
    mkVariant
        { chrom := "1", pos := 1, ref := ['A'], alt := ['T'], depth := 0,
          ref_reads := 0, alt_reads := 0, maf := 0, vtype := "snp" } =
      some
        { chrom := "1", pos := 1, ref := ['A'], alt := ['T'], depth := 0,
          ref_reads := 0, alt_reads := 0, maf := 0, vtype := "snp" } ∧
      build_annotation
        [{ chrom := "1", pos := 1, ref := ['A'], alt := ['T'], depth := 0,
           ref_reads := 0, alt_reads := 0, maf := 0, vtype := "snp" }]
        [recSample] = .error .zeroDivisionError :=
  ⟨by decide, rfl⟩

/- The retrying annotation client, embedded from src/src/vep.py
(make_vep_request under the tenacity retry decorator with
stop_after_attempt(3), a retry predicate matching the RequestException
family, and reraise=False). -/

/-- A Python exception as classified by the retry predicate: the
RequestException family (connection failures, undecodable JSON bodies,
non-2xx HTTPError raised by raise_for_status) is retryable; anything else is
not matched by retry_if_exception_type. -/
inductive ReqExn where
  | connectionError
  | jsonDecodeError
  | httpError (status : Nat)
deriving DecidableEq, Repr

/-- The outcome of one attempt of the decorated function body: a decoded
response, a raised exception from the RequestException family, or some other
raised exception (not matched by the retry predicate). -/
inductive AttemptOutcome where
  | ok (resp : List VepRecord)
  | raised (e : ReqExn)
  | raisedOther
deriving DecidableEq, Repr

/-- What the decorated call ultimately does: return a response normally, or
raise — either tenacity's RetryError wrapping the last retryable failure
(reraise=False after the attempt budget is spent) or the unmatched exception
propagating on first occurrence. -/
inductive CallOutcome where
  | returns (resp : List VepRecord)
  | raisesRetryError (last : ReqExn)
  | raisesOther
deriving DecidableEq, Repr

/-- The tenacity retry loop with stop_after_attempt(3): run attempt n; a
success returns at once, a retryable failure is retried while n < 3 and
surfaced as RetryError at n = 3, an unmatched exception propagates
immediately.  Returns the outcome together with the number of attempts
made. -/
def retryLoop (attempt : Nat → AttemptOutcome) (n : Nat) : CallOutcome × Nat :=
  match attempt n with
  | .ok resp => (.returns resp, n)
  | .raised e =>
    if h : n < 3 then retryLoop attempt (n + 1)
    else (.raisesRetryError e, n)
  | .raisedOther => (.raisesOther, n)
termination_by 3 - n
decreasing_by omega

/-- make_vep_request from src/src/vep.py: the POST body, raise_for_status
and response.json() are abstracted as the per-attempt outcome oracle; the
tenacity decorator drives the attempts starting from attempt number 1. -/
def make_vep_request (attempt : Nat → AttemptOutcome) : CallOutcome × Nat :=
  retryLoop attempt 1

theorem retryLoop_ok {attempt : Nat → AttemptOutcome} {n : Nat}
    {resp : List VepRecord} (hx : attempt n = .ok resp) :
    retryLoop attempt n = (.returns resp, n) := by
  rw [retryLoop.eq_def, hx]

theorem retryLoop_raised_lt {attempt : Nat → AttemptOutcome} {n : Nat}
    {e : ReqExn} (hx : attempt n = .raised e) (h : n < 3) :
    retryLoop attempt n = retryLoop attempt (n + 1) := by
  rw [retryLoop.eq_def, hx]
  show (if h : n < 3 then retryLoop attempt (n + 1)
    else (CallOutcome.raisesRetryError e, n)) = _
  rw [dif_pos h]

theorem retryLoop_raised_ge {attempt : Nat → AttemptOutcome} {n : Nat}
    {e : ReqExn} (hx : attempt n = .raised e) (h : ¬ n < 3) :
    retryLoop attempt n = (.raisesRetryError e, n) := by
  rw [retryLoop.eq_def, hx]
  show (if h : n < 3 then retryLoop attempt (n + 1)
    else (CallOutcome.raisesRetryError e, n)) = _
  rw [dif_neg h]

theorem retryLoop_other {attempt : Nat → AttemptOutcome} {n : Nat}
    (hx : attempt n = .raisedOther) :
    retryLoop attempt n = (.raisesOther, n) := by
  rw [retryLoop.eq_def, hx]

theorem retryLoop_attempts_le (attempt : Nat → AttemptOutcome) :
    ∀ n, n ≤ 3 → (retryLoop attempt n).2 ≤ 3 := by
  intro n
  refine retryLoop.induct attempt
    (fun n => n ≤ 3 → (retryLoop attempt n).2 ≤ 3) ?_ ?_ ?_ ?_ n
  · intro x resp hx h
    rw [retryLoop_ok hx]
    exact h
  · intro x e hx hlt ih h
    rw [retryLoop_raised_lt hx hlt]
    exact ih (by omega)
  · intro x e hx hge h
    rw [retryLoop_raised_ge hx hge]
    exact h
  · intro x hx h
    rw [retryLoop_other hx]
    exact h

theorem retryLoop_success (attempt : Nat → AttemptOutcome) :
    ∀ n resp k, n ≤ k → k ≤ 3 →
      (∀ i, n ≤ i → i < k → ∃ e, attempt i = .raised e) →
      attempt k = .ok resp → retryLoop attempt n = (.returns resp, k) := by
  intro n
  refine retryLoop.induct attempt (fun n => ∀ resp k, n ≤ k → k ≤ 3 →
    (∀ i, n ≤ i → i < k → ∃ e, attempt i = .raised e) →
    attempt k = .ok resp → retryLoop attempt n = (.returns resp, k))
    ?_ ?_ ?_ ?_ n
  · intro x resp0 hx resp k hnk hk3 hfail hk
    rcases Nat.eq_or_lt_of_le hnk with rfl | hlt
    · rw [hx] at hk
      injection hk with hk
      rw [retryLoop_ok hx, hk]
    · obtain ⟨e, he⟩ := hfail x (le_refl x) hlt
      rw [hx] at he
      simp at he
  · intro x e hx hlt ih resp k hnk hk3 hfail hk
    have hxlt : x < k := by
      rcases Nat.eq_or_lt_of_le hnk with rfl | h
      · rw [hx] at hk
        simp at hk
      · exact h
    rw [retryLoop_raised_lt hx hlt]
    exact ih resp k (by omega) hk3 (fun i h1 h2 => hfail i (by omega) h2) hk
  · intro x e hx hge resp k hnk hk3 hfail hk
    have : k = x := by omega
    subst this
    rw [hx] at hk
    simp at hk
  · intro x hx resp k hnk hk3 hfail hk
    rcases Nat.eq_or_lt_of_le hnk with rfl | hlt
    · rw [hx] at hk
      simp at hk
    · obtain ⟨e, he⟩ := hfail x (le_refl x) hlt
      rw [hx] at he
      simp at he

theorem retryLoop_exhaust (attempt : Nat → AttemptOutcome) :
    ∀ n, n ≤ 3 →
      (∀ i, n ≤ i → i ≤ 3 → ∃ e, attempt i = .raised e) →
      ∃ e, retryLoop attempt n = (.raisesRetryError e, 3) := by
  intro n
  refine retryLoop.induct attempt (fun n => n ≤ 3 →
    (∀ i, n ≤ i → i ≤ 3 → ∃ e, attempt i = .raised e) →
    ∃ e, retryLoop attempt n = (.raisesRetryError e, 3)) ?_ ?_ ?_ ?_ n
  · intro x resp hx h3 hfail
    obtain ⟨e, he⟩ := hfail x (le_refl x) h3
    rw [hx] at he
    simp at he
  · intro x e hx hlt ih h3 hfail
    obtain ⟨e2, he2⟩ := ih (by omega) (fun i h1 h2 => hfail i (by omega) h2)
    refine ⟨e2, ?_⟩
    rw [retryLoop_raised_lt hx hlt]
    exact he2
  · intro x e hx hge h3 hfail
    have : x = 3 := by omega
    subst this
    exact ⟨e, retryLoop_raised_ge hx hge⟩
  · intro x hx h3 hfail
    obtain ⟨e, he⟩ := hfail x (le_refl x) h3
    rw [hx] at he
    simp at he

/-- C5: make_vep_request makes at most 3 total attempts; a run of retryable
failures is retried while the attempt budget remains, so a success at
attempt k ≤ 3 preceded only by retryable failures returns its decoded
response (after exactly k attempts); and when all three attempts fail with
retryable errors, a RetryError is surfaced to the caller rather than a
normal result being returned. -/
theorem retry_policy (attempt : Nat → AttemptOutcome) :
    ((make_vep_request attempt).2 ≤ 3) ∧
      (∀ resp k, 1 ≤ k → k ≤ 3 →
        (∀ i, 1 ≤ i → i < k → ∃ e, attempt i = .raised e) →
        attempt k = .ok resp →
        make_vep_request attempt = (.returns resp, k)) ∧
      ((∀ i, 1 ≤ i → i ≤ 3 → ∃ e, attempt i = .raised e) →
        ∃ e, make_vep_request attempt = (.raisesRetryError e, 3) ∧
          ∀ resp, make_vep_request attempt ≠ (.returns resp, 3)) := by
  refine ⟨retryLoop_attempts_le attempt 1 (by omega), ?_, ?_⟩
  · intro resp k h1 h3 hfail hk
    exact retryLoop_success attempt 1 resp k h1 h3 hfail hk
  · intro hfail
    obtain ⟨e, he⟩ := retryLoop_exhaust attempt 1 (by omega) hfail
    have he2 : make_vep_request attempt = (.raisesRetryError e, 3) := he
    refine ⟨e, he2, ?_⟩
    intro resp hc
    rw [hc] at he2
    simp at he2

/-- Concrete instantiation of the retry theorem: a client that always fails
retryably surfaces a RetryError after 3 attempts, and a client that fails
twice then succeeds returns its response on the third attempt. -/
theorem retry_policy_witness :
    (∃ e, make_vep_request (fun _ => .raised .connectionError) =
        (.raisesRetryError e, 3)) ∧
      make_vep_request
          (fun i => if i ≤ 2 then .raised .jsonDecodeError else .ok []) =
        (.returns [], 3) := by
  constructor
  · obtain ⟨e, he, -⟩ := (retry_policy (fun _ => .raised .connectionError)).2.2
      (fun i h1 h3 => ⟨.connectionError, rfl⟩)
    exact ⟨e, he⟩
  · refine (retry_policy _).2.1 [] 3 (by omega) (by omega) ?_ (by norm_num)
    intro i h1 h2
    exact ⟨.jsonDecodeError, by rw [if_pos (by omega)]⟩

/- The batch pipeline, embedded from src/variant_annotation.py (main and
write_futures_in_order).  The worker computation is abstracted by a function
g from one variant to its annotation: under index-aligned lookup responses
the per-batch work maps each variant of the batch to an annotation depending
only on that variant, and a drained future's result is that list. -/

/-- The orchestrator state of the main loop: the batch being accumulated,
the FIFO list of pending futures (each identified with the row list it will
deliver), and the rows already written to the sink. -/
structure PipeState (V A : Type) where
  batch : List V
  futures : List (List A)
  out : List A
deriving DecidableEq, Repr

/-- One iteration of the for loop of main: append the variant to the batch;
when the batch reaches batch_size, submit it as one future; when the
futures list then reaches the thread count, drain all futures in submission
order via write_futures_in_order and clear the list. -/
def stepVariant {V A : Type} (bs wc : Nat) (g : V → A) (s : PipeState V A)
    (v : V) : PipeState V A :=
  let batch := s.batch ++ [v]
  if batch.length = bs then
    let futures := s.futures ++ [batch.map g]
    if futures.length = wc then
      { batch := [], futures := [], out := s.out ++ futures.flatten }
    else
      { batch := [], futures := futures, out := s.out }
  else
    { batch := batch, futures := s.futures, out := s.out }

/-- The epilogue of main: submit any leftover partial batch, then drain
whatever futures remain, in submission order. -/
def finishRun {V A : Type} (g : V → A) (s : PipeState V A) : List A :=
  let futures :=
    if s.batch.isEmpty then s.futures else s.futures ++ [s.batch.map g]
  s.out ++ futures.flatten

/-- The full pipeline: fold the main loop over the input and run the
epilogue; the result is the sequence of rows written after the header. -/
def pipelineEmit {V A : Type} (vs : List V) (bs wc : Nat) (g : V → A) :
    List A :=
  finishRun g (vs.foldl (stepVariant bs wc g) ⟨[], [], []⟩)

theorem stepVariant_outFlat {V A : Type} (bs wc : Nat) (g : V → A)
    (s : PipeState V A) (v : V) :
    (stepVariant bs wc g s v).out ++
        (stepVariant bs wc g s v).futures.flatten ++
        (stepVariant bs wc g s v).batch.map g =
      s.out ++ s.futures.flatten ++ s.batch.map g ++ [g v] := by
  simp only [stepVariant]
  split_ifs with h1 h2 <;>
    simp [List.flatten_append, List.map_append, List.append_assoc]

theorem foldl_outFlat {V A : Type} (bs wc : Nat) (g : V → A) :
    ∀ (vs : List V) (s : PipeState V A),
      (vs.foldl (stepVariant bs wc g) s).out ++
          (vs.foldl (stepVariant bs wc g) s).futures.flatten ++
          (vs.foldl (stepVariant bs wc g) s).batch.map g =
        s.out ++ s.futures.flatten ++ s.batch.map g ++ vs.map g := by
  intro vs
  induction vs with
  | nil =>
    intro s
    simp
  | cons v vs ih =>
    intro s
    rw [List.foldl_cons, ih, stepVariant_outFlat]
    simp [List.append_assoc]

theorem finishRun_outFlat {V A : Type} (g : V → A) (s : PipeState V A) :
    finishRun g s = s.out ++ s.futures.flatten ++ s.batch.map g := by
  simp only [finishRun]
  by_cases h : s.batch.isEmpty
  · rw [if_pos h]
    have hb : s.batch = [] := by simpa using h
    rw [hb]
    simp
  · rw [if_neg h]
    simp [List.flatten_append, List.append_assoc]

/-- C1: for every finite input sequence of variants, every batch_size in
[1, N] and every worker_count in [1, N], with index-aligned per-variant
lookup responses (the annotation function g), the sequence of rows the
pipeline writes after the header is element-for-element the annotation of
each input variant in original input order — batching and concurrency are
not observable in the output order. -/
theorem pipeline_preserves_order {V A : Type} (vs : List V) (bs wc : Nat)
    (g : V → A) (hbs1 : 1 ≤ bs) (hbsN : bs ≤ vs.length)
    (hwc1 : 1 ≤ wc) (hwcN : wc ≤ vs.length) :
    pipelineEmit vs bs wc g = vs.map g := by
  unfold pipelineEmit
  rw [finishRun_outFlat, foldl_outFlat]
  simp

/-- Concrete instantiation of the ordering theorem on a three-element
input with unit batches and one worker. -/
theorem pipeline_preserves_order_witness :
    pipelineEmit [0, 1, 2] 1 1 (fun n => n + 10) = [10, 11, 12] := by
  have h := pipeline_preserves_order [0, 1, 2] 1 1 (fun n : Nat => n + 10)
    (by decide) (by decide) (by decide) (by decide)
  rw [h]
  rfl

/-- The orchestrator-visible micro-states of one loop iteration: the state
right after a submission (futures grown by one) and, when the thread-count
threshold is reached, the state after write_futures_in_order drains and the
list is cleared; an iteration that only accumulates contributes one state. -/
def stepStates {V A : Type} (bs wc : Nat) (g : V → A) (s : PipeState V A)
    (v : V) : List (PipeState V A) :=
  let batch := s.batch ++ [v]
  if batch.length = bs then
    let futures := s.futures ++ [batch.map g]
    if futures.length = wc then
      [{ batch := [], futures := futures, out := s.out },
       { batch := [], futures := [], out := s.out ++ futures.flatten }]
    else
      [{ batch := [], futures := futures, out := s.out }]
  else
    [{ batch := batch, futures := s.futures, out := s.out }]

/-- All orchestrator states of a run from state s: the micro-states of each
loop iteration, then the epilogue's post-submission state and the final
drained state. -/
def runStates {V A : Type} (bs wc : Nat) (g : V → A) :
    List V → PipeState V A → List (PipeState V A)
  | [], s =>
    let futures :=
      if s.batch.isEmpty then s.futures else s.futures ++ [s.batch.map g]
    [{ batch := [], futures := futures, out := s.out },
     { batch := [], futures := [], out := s.out ++ futures.flatten }]
  | v :: vs, s =>
    stepStates bs wc g s v ++ runStates bs wc g vs (stepVariant bs wc g s v)

/-- Every orchestrator state of a pipeline run, beginning with the empty
initial state. -/
def pipelineStates {V A : Type} (vs : List V) (bs wc : Nat) (g : V → A) :
    List (PipeState V A) :=
  ⟨[], [], []⟩ :: runStates bs wc g vs ⟨[], [], []⟩

theorem stepVariant_futures_lt {V A : Type} (bs wc : Nat) (g : V → A)
    (s : PipeState V A) (v : V) (hwc : 1 ≤ wc)
    (h : s.futures.length < wc) :
    (stepVariant bs wc g s v).futures.length < wc := by
  simp only [stepVariant]
  split_ifs with h1 h2
  · simp
    omega
  · simp only [List.length_append, List.length_singleton] at h2 ⊢
    omega
  · simpa using h

theorem runStates_futures_le {V A : Type} (bs wc : Nat) (g : V → A)
    (hwc : 1 ≤ wc) :
    ∀ (vs : List V) (s : PipeState V A), s.futures.length < wc →
      ∀ t ∈ runStates bs wc g vs s, t.futures.length ≤ wc := by
  intro vs
  induction vs with
  | nil =>
    intro s hs t ht
    simp only [runStates, List.mem_cons, List.mem_singleton,
      List.not_mem_nil, or_false] at ht
    rcases ht with rfl | rfl
    · by_cases hb : s.batch.isEmpty
      · simp only [if_pos hb]
        omega
      · simp only [if_neg hb, List.length_append, List.length_singleton]
        omega
    · simp
  | cons v vs ih =>
    intro s hs t ht
    simp only [runStates] at ht
    rcases List.mem_append.mp ht with hstep | hrest
    · simp only [stepStates] at hstep
      split_ifs at hstep with h1 h2
      · simp only [List.mem_cons, List.mem_singleton, List.not_mem_nil,
          or_false] at hstep
        rcases hstep with rfl | rfl
        · simp only [List.length_append, List.length_singleton]
          omega
        · simp
      · simp only [List.mem_singleton] at hstep
        subst hstep
        simp only [List.length_append, List.length_singleton]
        omega
      · simp only [List.mem_singleton] at hstep
        subst hstep
        exact Nat.le_of_lt hs
    · exact ih (stepVariant bs wc g s v)
        (stepVariant_futures_lt bs wc g s v hwc hs) t hrest

/-- C9: at every orchestrator-visible point of a pipeline run whose
worker_count lies in the allowed configuration range 1..32 (and for any
positive batch_size), the number of in-flight batch futures — submitted but
not yet drained — never exceeds worker_count. -/
theorem backpressure_bound {V A : Type} (vs : List V) (bs wc : Nat)
    (g : V → A) (hbs : 1 ≤ bs) (hwc1 : 1 ≤ wc) (hwc32 : wc ≤ 32) :
    ∀ t ∈ pipelineStates vs bs wc g, t.futures.length ≤ wc := by
  intro t ht
  rcases List.mem_cons.mp ht with rfl | h
  · simp
  · exact runStates_futures_le bs wc g hwc1 vs ⟨[], [], []⟩
      (by simp; omega) t h

/-- Concrete instantiation of the backpressure theorem: the state holding
one submitted and undrained future in a one-worker run respects the bound. -/
theorem backpressure_bound_witness :
    ({ batch := [], futures := [[10]], out := [] } :
      PipeState Nat Nat).futures.length ≤ 1 :=
  backpressure_bound [0] 1 1 (fun n => n + 10) (by decide) (by decide)
    (by decide) { batch := [], futures := [[10]], out := [] } (by decide)

end VariantAnnotation
